import Mathlib

/-!
Shallow embedding of `src/arbitrage_monitor.py` (class `ArbitrageMonitor`).

Modelling conventions:
* Python `float` prices are modelled as `ℚ`; the arithmetic the detector
  performs (subtraction, division, comparison with the threshold) is exact
  on the inputs considered here.  Division is total on `ℚ` with `x / 0 = 0`.
* `datetime.now()` timestamps are irrelevant to every property considered,
  so timestamps are modelled as `ℕ` and fresh timestamps as `0`.
* Python's `sorted(prices, key=lambda x: x.price)` is a stable sort by
  price; any stable sort by the same key computes the same list, so it is
  embedded as `List.insertionSort` with the price ordering.
* `asyncio.gather(..., return_exceptions=True)` yields, in task order, one
  result per adapter, each either a list of quotes or an exception; this is
  embedded as `List (Except String (List PriceData))`.
-/

namespace ArbMon

/-- Python dataclass `PriceData` (exchange, symbol, price, timestamp, volume_24h). -/
structure PriceData where
  exchange : String
  symbol : String
  price : ℚ
  timestamp : ℕ
  volume_24h : Option ℚ := none
deriving DecidableEq

/-- Python dataclass `ArbitrageOpportunity`. -/
structure ArbitrageOpportunity where
  symbol : String
  buy_exchange : String
  sell_exchange : String
  buy_price : ℚ
  sell_price : ℚ
  spread_pct : ℚ
  timestamp : ℕ
deriving DecidableEq

/-- The key ordering used by `sorted(prices, key=lambda x: x.price)`. -/
def priceLE (a b : PriceData) : Prop := a.price ≤ b.price

instance : DecidableRel priceLE := fun a b => inferInstanceAs (Decidable (a.price ≤ b.price))

instance : IsTotal PriceData priceLE := ⟨fun a b => le_total a.price b.price⟩

instance : IsTrans PriceData priceLE := ⟨fun _ _ _ h h' => le_trans h h'⟩

/-- Embedding of `sorted(prices, key=lambda x: x.price)`: a stable sort by price. -/
def sortByPrice (prices : List PriceData) : List PriceData :=
  prices.insertionSort priceLE

/-- The body of the `for symbol, prices in price_groups.items()` loop of
`find_arbitrage_opportunities` (src/arbitrage_monitor.py lines 186-208):
skip groups with fewer than two quotes, otherwise take the head
(`sorted_prices[0]`) and last element (`sorted_prices[-1]`) of the stable
sort by price, compute the spread percentage and emit an opportunity when
it reaches `self.min_spread_pct` (inclusive comparison `>=`). -/
def detectGroup (min_spread_pct : ℚ) (symbol : String) (prices : List PriceData) :
    Option ArbitrageOpportunity :=
  if prices.length < 2 then none
  else
    match (sortByPrice prices).head?, (sortByPrice prices).getLast? with
    | some min_price, some max_price =>
      let spread_pct : ℚ := (max_price.price - min_price.price) / min_price.price * 100
      if min_spread_pct ≤ spread_pct then
        some { symbol := symbol
               buy_exchange := min_price.exchange
               sell_exchange := max_price.exchange
               buy_price := min_price.price
               sell_price := max_price.price
               spread_pct := spread_pct
               timestamp := 0 }
      else none
    | _, _ => none

/-- `find_arbitrage_opportunities` (src/arbitrage_monitor.py lines 180-210):
iterate over the grouped price data (a Python dict preserving insertion
order, modelled as an association list) and collect the opportunities the
loop body appends. -/
def find_arbitrage_opportunities (min_spread_pct : ℚ)
    (price_groups : List (String × List PriceData)) : List ArbitrageOpportunity :=
  price_groups.filterMap fun g => detectGroup min_spread_pct g.1 g.2

/-- One step of the grouping loop of `fetch_all_prices` (lines 172-176): append
`price` to the group keyed by its symbol, creating the group if absent
(Python dicts preserve key insertion order). -/
def insertGrouped (acc : List (String × List PriceData)) (p : PriceData) :
    List (String × List PriceData) :=
  if acc.any fun e => e.1 = p.symbol then
    acc.map fun e => if e.1 = p.symbol then (e.1, e.2 ++ [p]) else e
  else acc ++ [(p.symbol, [p])]

/-- The grouping loop of `fetch_all_prices`: `for price in all_prices: ...`. -/
def groupBySymbol (all_prices : List PriceData) : List (String × List PriceData) :=
  all_prices.foldl insertGrouped []

/-- One step of the result-collection loop of `fetch_all_prices` (lines
165-169): extend `all_prices` on a successful adapter result, skip (log) an
exception. -/
def collectStep (acc : List PriceData) (r : Except String (List PriceData)) :
    List PriceData :=
  match r with
  | Except.ok l => acc ++ l
  | Except.error _ => acc

/-- The result-collection loop of `fetch_all_prices` (lines 163-169). -/
def collectOk (results : List (Except String (List PriceData))) : List PriceData :=
  results.foldl collectStep []

/-- `fetch_all_prices` (src/arbitrage_monitor.py lines 152-178), given the
per-adapter results of `asyncio.gather(..., return_exceptions=True)` in task
order: keep the successful results, then group the quotes by symbol. -/
def fetch_all_prices (results : List (Except String (List PriceData))) :
    List (String × List PriceData) :=
  groupBySymbol (collectOk results)

/-- The Binance symbols of interest (src/arbitrage_monitor.py line 122). -/
def binance_symbols : List String :=
  ["BTCUSDT", "ETHUSDT", "SOLUSDT", "AVAXUSDT"]

/-- The `symbol_map` dict of `fetch_binance_prices` (lines 123-128). -/
def binance_symbol_map (s : String) : String :=
  if s = "BTCUSDT" then "BTCUSD"
  else if s = "ETHUSDT" then "ETHUSD"
  else if s = "SOLUSDT" then "SOLUSD"
  else if s = "AVAXUSDT" then "AVAXUSD"
  else s

/-- A raw Binance ticker record.  `lastPrice` and `volume` are `some q` when
the corresponding `float(...)` conversion succeeds and `none` when it raises. -/
structure RawTicker where
  symbol : String
  lastPrice : Option ℚ
  volume : Option ℚ
deriving DecidableEq

/-- Building one `PriceData` from a ticker (lines 140-146); `none` when a
`float(...)` conversion raises. -/
def parseTicker (t : RawTicker) : Option PriceData :=
  match t.lastPrice, t.volume with
  | some p, some v =>
    some { exchange := "binance"
           symbol := binance_symbol_map t.symbol
           price := p
           timestamp := 0
           volume_24h := some v }
  | _, _ => none

/-- The ticker loop of `fetch_binance_prices` (lines 138-146).  The whole loop
runs inside one `try`: a parse failure raises out of the loop, is caught by
the function-level `except` (line 147), and the quotes accumulated so far
are returned. -/
def binanceLoop : List RawTicker → List PriceData → List PriceData
  | [], acc => acc
  | t :: ts, acc =>
    if t.symbol ∈ binance_symbols then
      match parseTicker t with
      | some pd => binanceLoop ts (acc ++ [pd])
      | none => acc
    else binanceLoop ts acc

/-- `fetch_binance_prices` (src/arbitrage_monitor.py lines 117-150).  `none`
models an unreachable venue or a non-200 status: either way `prices` stays
empty.  `some tickers` models a 200 response with the given records. -/
def fetch_binance_prices (response : Option (List RawTicker)) : List PriceData :=
  match response with
  | none => []
  | some tickers => binanceLoop tickers []

/-- Outcome of one `run_monitoring_cycle` call as seen by `start_monitoring`:
normal completion, an exception caught by the generic handler, or
`KeyboardInterrupt`. -/
inductive CycleOutcome where
  | ok (opps : List ArbitrageOpportunity)
  | err (msg : String)
  | interrupt
deriving DecidableEq

/-- `start_monitoring` (src/arbitrage_monitor.py lines 274-287), run against a
finite script of per-cycle outcomes.  Returns the trace of executed cycles,
each paired with the sleep performed after it, and whether the loop
terminated (`break`).  Both the success path and the generic `except` branch
sleep the full `interval_seconds`; `KeyboardInterrupt` breaks immediately. -/
def start_monitoring (interval_seconds : ℕ) :
    List CycleOutcome → List (CycleOutcome × ℕ) × Bool
  | [] => ([], false)
  | CycleOutcome.interrupt :: _ => ([(CycleOutcome.interrupt, 0)], true)
  | c :: cs =>
    let rest := start_monitoring interval_seconds cs
    ((c, interval_seconds) :: rest.1, rest.2)

/-- Start time of the n-th cycle of `start_monitoring`, for cycles of the
given durations: the loop body runs the cycle (taking `dur n`) and then
sleeps the full `interval_seconds` before the next iteration. -/
def cycleStart (interval_seconds : ℕ) (dur : ℕ → ℕ) : ℕ → ℕ
  | 0 => 0
  | n + 1 => cycleStart interval_seconds dur n + dur n + interval_seconds

/-- One persisted CSV row of `save_to_csv` (lines 233-244). -/
structure CsvRow where
  timestamp : ℕ
  symbol : String
  buy_exchange : String
  sell_exchange : String
  buy_price : ℚ
  sell_price : ℚ
  spread_pct : ℚ
deriving DecidableEq

/-- The row built for one opportunity (lines 234-242). -/
def oppToRow (o : ArbitrageOpportunity) : CsvRow :=
  { timestamp := o.timestamp
    symbol := o.symbol
    buy_exchange := o.buy_exchange
    sell_exchange := o.sell_exchange
    buy_price := o.buy_price
    sell_price := o.sell_price
    spread_pct := o.spread_pct }

/-- `save_to_csv` (src/arbitrage_monitor.py lines 227-254) acting on the CSV
file's contents, modelled as `Option (List CsvRow)` (`none` = the file does
not exist).  An empty opportunity list returns before touching the file;
otherwise the new rows are appended to the existing contents (or the file is
created from them). -/
def save_to_csv (opportunities : List ArbitrageOpportunity)
    (file : Option (List CsvRow)) : Option (List CsvRow) :=
  if opportunities.isEmpty then file
  else
    let df := opportunities.map oppToRow
    match file with
    | some existing => some (existing ++ df)
    | none => some df

/-- First quote of the list attaining the minimum price (ties resolved to the
earlier list position) — the element a stable sort by price puts first. -/
def firstMinQuote : List PriceData → Option PriceData
  | [] => none
  | a :: l =>
    match firstMinQuote l with
    | none => some a
    | some m => if a.price ≤ m.price then some a else some m

/-- Last quote of the list attaining the maximum price (ties resolved to the
later list position) — the element a stable sort by price puts last. -/
def lastMaxQuote : List PriceData → Option PriceData
  | [] => none
  | a :: l =>
    match lastMaxQuote l with
    | none => some a
    | some m => if m.price < a.price then some a else some m

/-! Lemmas about the stable sort by price. -/

theorem head?_orderedInsert_cons (a b : PriceData) (t : List PriceData) :
    ((b :: t).orderedInsert priceLE a).head? = some (if priceLE a b then a else b) := by
  by_cases h : priceLE a b <;> simp [List.orderedInsert, h]

theorem head?_sortByPrice : ∀ l : List PriceData, (sortByPrice l).head? = firstMinQuote l
  | [] => rfl
  | a :: t => by
    have ih := head?_sortByPrice t
    show (List.orderedInsert priceLE a (sortByPrice t)).head? = firstMinQuote (a :: t)
    cases h : sortByPrice t with
    | nil =>
      rw [h] at ih
      simp only [List.head?_nil] at ih
      simp [firstMinQuote, ← ih, List.orderedInsert]
    | cons b s =>
      rw [h] at ih
      simp only [List.head?_cons] at ih
      rw [head?_orderedInsert_cons]
      simp only [firstMinQuote, ← ih]
      by_cases hab : priceLE a b
      · rw [if_pos hab, if_pos (show a.price ≤ b.price from hab)]
      · rw [if_neg hab, if_neg (show ¬ a.price ≤ b.price from hab)]

theorem orderedInsert_ne_nil (a : PriceData) (l : List PriceData) :
    l.orderedInsert priceLE a ≠ [] := by
  intro h
  have hlen := List.orderedInsert_length (r := priceLE) l a
  rw [h] at hlen
  simp at hlen

theorem sorted_sortByPrice (l : List PriceData) : (sortByPrice l).Sorted priceLE :=
  List.sorted_insertionSort priceLE l

theorem perm_sortByPrice (l : List PriceData) : List.Perm (sortByPrice l) l :=
  List.perm_insertionSort priceLE l

theorem head_le_getLast_sorted {l : List PriceData} (hs : l.Sorted priceLE)
    {m M : PriceData} (hm : l.head? = some m) (hM : l.getLast? = some M) :
    m.price ≤ M.price := by
  cases l with
  | nil => simp at hm
  | cons x t =>
    simp only [List.head?_cons, Option.some.injEq] at hm
    subst hm
    have hMmem : M ∈ x :: t := List.mem_of_getLast?_eq_some hM
    rcases List.mem_cons.mp hMmem with h | h
    · subst h; exact le_refl _
    · exact List.rel_of_sorted_cons hs M h

theorem getLast?_orderedInsert (a : PriceData) :
    ∀ l : List PriceData, l.Sorted priceLE →
      (l.orderedInsert priceLE a).getLast? =
        some ((l.getLast?).elim a fun m => if m.price < a.price then a else m)
  | [], _ => rfl
  | b :: t, hs => by
    by_cases h : priceLE a b
    · rw [List.orderedInsert_of_le (r := priceLE) t h, List.getLast?_cons_cons]
      cases hM : (b :: t).getLast? with
      | none => simp at hM
      | some M =>
        have hbM : b.price ≤ M.price :=
          head_le_getLast_sorted hs (by simp) hM
        have : ¬ M.price < a.price := not_lt.mpr (le_trans h hbM)
        simp [this]
    · have step : (b :: t).orderedInsert priceLE a = b :: t.orderedInsert priceLE a := by
        simp [List.orderedInsert, h]
      rw [step]
      cases hins : t.orderedInsert priceLE a with
      | nil => exact absurd hins (orderedInsert_ne_nil a t)
      | cons c cs =>
        have heq := getLast?_orderedInsert a t hs.of_cons
        rw [hins] at heq
        rw [List.getLast?_cons_cons, heq]
        cases t with
        | nil =>
          have hba : b.price < a.price := lt_of_not_ge h
          simp [hba]
        | cons c' t' =>
          rw [List.getLast?_cons_cons]

theorem getLast?_sortByPrice : ∀ l : List PriceData, (sortByPrice l).getLast? = lastMaxQuote l
  | [] => rfl
  | a :: t => by
    have ih := getLast?_sortByPrice t
    show (List.orderedInsert priceLE a (sortByPrice t)).getLast? = lastMaxQuote (a :: t)
    rw [getLast?_orderedInsert a (sortByPrice t) (sorted_sortByPrice t), ih]
    cases h : lastMaxQuote t with
    | none => simp [lastMaxQuote, h]
    | some m =>
      simp only [Option.elim_some, lastMaxQuote, h]
      by_cases hlt : m.price < a.price
      · rw [if_pos hlt, if_pos hlt]
      · rw [if_neg hlt, if_neg hlt]

theorem firstMinQuote_price :
    ∀ l : List PriceData, (firstMinQuote l).map PriceData.price = (l.map PriceData.price).min?
  | [] => rfl
  | a :: t => by
    have ih := firstMinQuote_price t
    simp only [List.map_cons, List.min?_cons]
    cases h : firstMinQuote t with
    | none =>
      rw [h] at ih
      simp only [Option.map_none'] at ih
      rw [← ih]
      simp [firstMinQuote, h]
    | some m =>
      rw [h] at ih
      simp only [Option.map_some'] at ih
      rw [← ih]
      simp only [firstMinQuote, h, Option.elim_some]
      by_cases hle : a.price ≤ m.price
      · rw [if_pos hle, min_eq_left hle]; rfl
      · rw [if_neg hle, min_eq_right (le_of_not_le hle)]; rfl

theorem lastMaxQuote_price :
    ∀ l : List PriceData, (lastMaxQuote l).map PriceData.price = (l.map PriceData.price).max?
  | [] => rfl
  | a :: t => by
    have ih := lastMaxQuote_price t
    simp only [List.map_cons, List.max?_cons]
    cases h : lastMaxQuote t with
    | none =>
      rw [h] at ih
      simp only [Option.map_none'] at ih
      rw [← ih]
      simp [lastMaxQuote, h]
    | some m =>
      rw [h] at ih
      simp only [Option.map_some'] at ih
      rw [← ih]
      simp only [lastMaxQuote, h, Option.elim_some]
      by_cases hlt : m.price < a.price
      · rw [if_pos hlt, max_eq_left (le_of_lt hlt)]; rfl
      · rw [if_neg hlt, max_eq_right (le_of_not_lt hlt)]; rfl

theorem firstMinQuote_isSome {l : List PriceData} (h : l ≠ []) :
    ∃ m, firstMinQuote l = some m := by
  cases l with
  | nil => exact absurd rfl h
  | cons a t =>
    simp only [firstMinQuote]
    cases firstMinQuote t with
    | none => exact ⟨a, rfl⟩
    | some m =>
      by_cases hle : a.price ≤ m.price
      · exact ⟨a, by simp [hle]⟩
      · exact ⟨m, by simp [hle]⟩

theorem lastMaxQuote_isSome {l : List PriceData} (h : l ≠ []) :
    ∃ M, lastMaxQuote l = some M := by
  cases l with
  | nil => exact absurd rfl h
  | cons a t =>
    simp only [lastMaxQuote]
    cases lastMaxQuote t with
    | none => exact ⟨a, rfl⟩
    | some m =>
      by_cases hlt : m.price < a.price
      · exact ⟨a, by simp [hlt]⟩
      · exact ⟨m, by simp [hlt]⟩

/-! Characterisation of the detector's loop body. -/

theorem detectGroup_some_eq (min_spread_pct : ℚ) (s : String) (prices : List PriceData)
    (h2 : 2 ≤ prices.length) :
    ∃ m M, firstMinQuote prices = some m ∧ lastMaxQuote prices = some M ∧
      detectGroup min_spread_pct s prices =
        (if min_spread_pct ≤ (M.price - m.price) / m.price * 100 then
          some { symbol := s
                 buy_exchange := m.exchange
                 sell_exchange := M.exchange
                 buy_price := m.price
                 sell_price := M.price
                 spread_pct := (M.price - m.price) / m.price * 100
                 timestamp := 0 }
         else none) := by
  have hne : prices ≠ [] := by
    intro h
    rw [h] at h2
    simp at h2
  obtain ⟨m, hm⟩ := firstMinQuote_isSome hne
  obtain ⟨M, hM⟩ := lastMaxQuote_isSome hne
  refine ⟨m, M, hm, hM, ?_⟩
  have hlen : ¬ prices.length < 2 := not_lt.mpr h2
  rw [detectGroup, if_neg hlen, head?_sortByPrice, getLast?_sortByPrice, hm, hM]

theorem detectGroup_some_inv {min_spread_pct : ℚ} {s : String} {prices : List PriceData}
    {o : ArbitrageOpportunity} (h : detectGroup min_spread_pct s prices = some o) :
    2 ≤ prices.length ∧
    ∃ m M, firstMinQuote prices = some m ∧ lastMaxQuote prices = some M ∧
      min_spread_pct ≤ (M.price - m.price) / m.price * 100 ∧
      o = { symbol := s
            buy_exchange := m.exchange
            sell_exchange := M.exchange
            buy_price := m.price
            sell_price := M.price
            spread_pct := (M.price - m.price) / m.price * 100
            timestamp := 0 } := by
  by_cases hlen : prices.length < 2
  · rw [detectGroup, if_pos hlen] at h
    exact absurd h (by simp)
  have h2 : 2 ≤ prices.length := not_lt.mp hlen
  obtain ⟨m, M, hm, hM, heq⟩ := detectGroup_some_eq min_spread_pct s prices h2
  rw [heq] at h
  by_cases hth : min_spread_pct ≤ (M.price - m.price) / m.price * 100
  · rw [if_pos hth] at h
    exact ⟨h2, m, M, hm, hM, hth, (Option.some_inj.mp h).symm⟩
  · rw [if_neg hth] at h
    exact absurd h (by simp)

/-! Lemmas about the fetch orchestration. -/

theorem mem_foldl_collectStep_of_mem (q : PriceData) :
    ∀ (results : List (Except String (List PriceData))) (acc : List PriceData),
      q ∈ acc → q ∈ results.foldl collectStep acc
  | [], _, hq => hq
  | r :: rs, acc, hq => by
    apply mem_foldl_collectStep_of_mem q rs
    cases r with
    | ok l => exact List.mem_append_left l hq
    | error e => exact hq

theorem mem_collectOk {q : PriceData} {qs : List PriceData} (hq : q ∈ qs) :
    ∀ (results : List (Except String (List PriceData))) (acc : List PriceData),
      Except.ok qs ∈ results → q ∈ results.foldl collectStep acc
  | [], _, hmem => by simp at hmem
  | r :: rs, acc, hmem => by
    rcases List.mem_cons.mp hmem with h | h
    · subst h
      exact mem_foldl_collectStep_of_mem q rs _ (List.mem_append_right acc hq)
    · exact mem_collectOk hq rs _ h

theorem insertGrouped_self (acc : List (String × List PriceData)) (p : PriceData) :
    ∃ g, (p.symbol, g) ∈ insertGrouped acc p ∧ p ∈ g := by
  rw [insertGrouped]
  by_cases hany : acc.any fun e => e.1 = p.symbol
  · rw [if_pos hany]
    obtain ⟨e, he, hes⟩ := List.any_eq_true.mp hany
    have hes' : e.1 = p.symbol := of_decide_eq_true hes
    refine ⟨e.2 ++ [p], ?_, List.mem_append_right _ (List.mem_singleton.mpr rfl)⟩
    have : (p.symbol, e.2 ++ [p]) = if e.1 = p.symbol then (e.1, e.2 ++ [p]) else e := by
      rw [if_pos hes', hes']
    rw [this]
    exact List.mem_map_of_mem _ he
  · rw [if_neg hany]
    exact ⟨[p], List.mem_append_right _ (List.mem_singleton.mpr rfl),
      List.mem_singleton.mpr rfl⟩

theorem insertGrouped_mono (acc : List (String × List PriceData)) (p : PriceData)
    {s : String} {g : List PriceData} {q : PriceData}
    (h : (s, g) ∈ acc) (hq : q ∈ g) :
    ∃ g', (s, g') ∈ insertGrouped acc p ∧ q ∈ g' := by
  rw [insertGrouped]
  by_cases hany : acc.any fun e => e.1 = p.symbol
  · rw [if_pos hany]
    by_cases hsp : s = p.symbol
    · refine ⟨g ++ [p], ?_, List.mem_append_left _ hq⟩
      have : (s, g ++ [p]) = if (s, g).1 = p.symbol then ((s, g).1, (s, g).2 ++ [p]) else (s, g) := by
        rw [if_pos hsp]
      rw [this]
      exact List.mem_map_of_mem _ h
    · refine ⟨g, ?_, hq⟩
      have : (s, g) = if (s, g).1 = p.symbol then ((s, g).1, (s, g).2 ++ [p]) else (s, g) := by
        rw [if_neg hsp]
      rw [this]
      exact List.mem_map_of_mem _ h
  · rw [if_neg hany]
    exact ⟨g, List.mem_append_left _ h, hq⟩

theorem foldl_insertGrouped_mono {s : String} {q : PriceData} :
    ∀ (ps : List PriceData) (acc : List (String × List PriceData)),
      (∃ g, (s, g) ∈ acc ∧ q ∈ g) →
      ∃ g', (s, g') ∈ ps.foldl insertGrouped acc ∧ q ∈ g'
  | [], _, h => h
  | p :: ps, acc, ⟨_g, hg, hq⟩ =>
    foldl_insertGrouped_mono ps (insertGrouped acc p) (insertGrouped_mono acc p hg hq)

theorem mem_foldl_insertGrouped {q : PriceData} :
    ∀ (ps : List PriceData) (acc : List (String × List PriceData)), q ∈ ps →
      ∃ g, (q.symbol, g) ∈ ps.foldl insertGrouped acc ∧ q ∈ g
  | [], _, hq => by simp at hq
  | p :: ps, acc, hq => by
    rcases List.mem_cons.mp hq with h | h
    · subst h
      exact foldl_insertGrouped_mono ps (insertGrouped acc q) (insertGrouped_self acc q)
    · exact mem_foldl_insertGrouped ps (insertGrouped acc p) h

theorem mem_groupBySymbol {q : PriceData} {ps : List PriceData} (hq : q ∈ ps) :
    ∃ g, (q.symbol, g) ∈ groupBySymbol ps ∧ q ∈ g :=
  mem_foldl_insertGrouped ps [] hq

theorem collectOk_all_fail :
    ∀ results : List (Except String (List PriceData)),
      (∀ r ∈ results, r.isOk = false) → collectOk results = []
  | [], _ => rfl
  | r :: rs, h => by
    have hr := h r (List.mem_cons_self r rs)
    cases r with
    | ok l => simp [Except.isOk, Except.toBool] at hr
    | error e =>
      show rs.foldl collectStep (collectStep [] (Except.error e)) = []
      exact collectOk_all_fail rs fun r hr' => h r (List.mem_cons_of_mem _ hr')

/-- On a list whose quotes carry pairwise distinct venues, the first and last
element of the sorted list (of length at least two) come from different
venues. -/
theorem head_getLast_exchange_ne {l : List PriceData} (h2 : 2 ≤ l.length)
    (hne : l.Pairwise fun a b => a.exchange ≠ b.exchange)
    {m M : PriceData} (hm : (sortByPrice l).head? = some m)
    (hM : (sortByPrice l).getLast? = some M) :
    m.exchange ≠ M.exchange := by
  have hperm := perm_sortByPrice l
  have hne' : (sortByPrice l).Pairwise fun a b => a.exchange ≠ b.exchange :=
    (hperm.pairwise_iff fun h => (h ·.symm)).mpr hne
  have hlen : 2 ≤ (sortByPrice l).length := by
    rw [hperm.length_eq]
    exact h2
  cases hl : sortByPrice l with
  | nil => rw [hl] at hm; simp at hm
  | cons x t =>
    rw [hl] at hm hM hne' hlen
    simp only [List.head?_cons, Option.some.injEq] at hm
    subst hm
    cases t with
    | nil => simp at hlen
    | cons y t' =>
      rw [List.getLast?_cons_cons] at hM
      have hMmem : M ∈ y :: t' := List.mem_of_getLast?_eq_some hM
      exact (List.pairwise_cons.mp hne').1 M hMmem

/-- The ticker loop returns the accumulator as soon as it hits a record of
interest that fails to parse; everything after that record is discarded. -/
theorem binanceLoop_stops {bad : RawTicker} (post : List RawTicker)
    (hbad : bad.symbol ∈ binance_symbols) (hbadp : parseTicker bad = none) :
    ∀ (pre : List RawTicker) (acc : List PriceData),
      (∀ t ∈ pre, t.symbol ∈ binance_symbols → (parseTicker t).isSome) →
      binanceLoop (pre ++ bad :: post) acc = binanceLoop pre acc
  | [], acc, _ => by simp [binanceLoop, hbad, hbadp]
  | t :: pre, acc, hpre => by
    by_cases hmem : t.symbol ∈ binance_symbols
    · have hsome := hpre t (List.mem_cons_self t pre) hmem
      cases hp : parseTicker t with
      | none => rw [hp] at hsome; simp at hsome
      | some pd =>
        show binanceLoop (t :: (pre ++ bad :: post)) acc = binanceLoop (t :: pre) acc
        rw [binanceLoop, binanceLoop, if_pos hmem, if_pos hmem, hp]
        exact binanceLoop_stops post hbad hbadp pre _
          fun u hu => hpre u (List.mem_cons_of_mem _ hu)
    · show binanceLoop (t :: (pre ++ bad :: post)) acc = binanceLoop (t :: pre) acc
      rw [binanceLoop, binanceLoop, if_neg hmem, if_neg hmem]
      exact binanceLoop_stops post hbad hbadp pre acc
        fun u hu => hpre u (List.mem_cons_of_mem _ hu)

/-! Concrete data used by counterexamples and witnesses. -/

/-- Venue-configuration order in `fetch_all_prices` is coinbase, coingecko,
binance (the task list, lines 156-160); `asyncio.gather` returns results in
that task order. -/
def quoteCb100 : PriceData :=
  { exchange := "coinbase", symbol := "BTCUSD", price := 100, timestamp := 0 }

def quoteCb102 : PriceData :=
  { exchange := "coinbase", symbol := "BTCUSD", price := 102, timestamp := 0 }

def quoteBin100 : PriceData :=
  { exchange := "binance", symbol := "BTCUSD", price := 100, timestamp := 0 }

def quoteBin102 : PriceData :=
  { exchange := "binance", symbol := "BTCUSD", price := 102, timestamp := 0 }

def quoteGk102 : PriceData :=
  { exchange := "coingecko", symbol := "BTCUSD", price := 102, timestamp := 0 }

def tkBtc : RawTicker := { symbol := "BTCUSDT", lastPrice := some 50000, volume := some 10 }

def tkEthBad : RawTicker := { symbol := "ETHUSDT", lastPrice := none, volume := some 5 }

def tkSol : RawTicker := { symbol := "SOLUSDT", lastPrice := some 150, volume := some 20 }

/-- The opportunity the detector computes for the group
[coinbase@100, binance@102] at any threshold at most 2. -/
def oppCbBin : ArbitrageOpportunity :=
  { symbol := "BTCUSD", buy_exchange := "coinbase", sell_exchange := "binance",
    buy_price := 100, sell_price := 102, spread_pct := 2, timestamp := 0 }

/-! Claim theorems. -/

/-- C1: for every symbol group of at least two quotes (whose prices are
positive, per the Quote data model), the detector's loop body emits an
opportunity iff `(max - min) / min * 100` reaches the configured threshold
(inclusive boundary), and the emitted `spread_pct` is exactly that value.
Here `lo`/`hi` are the minimum/maximum of the group's prices. -/
theorem detectGroup_some_iff_threshold (min_spread_pct : ℚ) (s : String)
    (prices : List PriceData) (h2 : 2 ≤ prices.length) (lo hi : ℚ)
    (hlo : (prices.map PriceData.price).min? = some lo)
    (hhi : (prices.map PriceData.price).max? = some hi)
    (_hpos : 0 < lo) :
    ((detectGroup min_spread_pct s prices).isSome ↔
      min_spread_pct ≤ (hi - lo) / lo * 100) ∧
    ∀ o, detectGroup min_spread_pct s prices = some o →
      o.spread_pct = (hi - lo) / lo * 100 := by
  obtain ⟨m, M, hm, hM, heq⟩ := detectGroup_some_eq min_spread_pct s prices h2
  have hmp : m.price = lo := by
    have := firstMinQuote_price prices
    rw [hm, hlo] at this
    exact Option.some_inj.mp this
  have hMp : M.price = hi := by
    have := lastMaxQuote_price prices
    rw [hM, hhi] at this
    exact Option.some_inj.mp this
  rw [hmp, hMp] at heq
  constructor
  · rw [heq]
    by_cases hth : min_spread_pct ≤ (hi - lo) / lo * 100
    · simp [hth]
    · simp [hth]
  · intro o ho
    rw [heq] at ho
    by_cases hth : min_spread_pct ≤ (hi - lo) / lo * 100
    · rw [if_pos hth] at ho
      rw [← Option.some_inj.mp ho]
    · rw [if_neg hth] at ho
      exact absurd ho (by simp)

/-- C1 witness: the spec's concrete scenario — coinbase quotes BTCUSD at 100,
binance at 102, threshold 0.5% — instantiating the theorem. -/
theorem detectGroup_some_iff_threshold_witness :
    ((detectGroup (1/2) "BTCUSD" [quoteCb100, quoteBin102]).isSome ↔
      (1/2 : ℚ) ≤ (102 - 100) / 100 * 100) ∧
    ∀ o, detectGroup (1/2) "BTCUSD" [quoteCb100, quoteBin102] = some o →
      o.spread_pct = (102 - 100) / 100 * 100 :=
  detectGroup_some_iff_threshold (1/2) "BTCUSD" [quoteCb100, quoteBin102]
    (by decide) 100 102 (by decide) (by decide) (by decide)

/-- C2 counterexample: in the group [binance@100, coinbase@100, coingecko@102]
binance and coinbase tie for the minimum price and coinbase comes first in
venue-configuration order (coinbase, coingecko, binance), yet the detector
picks binance — the quote that appears first in the group — as buy venue, so
the tie-break is NOT venue-configuration order and NOT independent of the
arrival order in the group. -/
theorem detectGroup_tie_break_cex :
    (detectGroup 1 "BTCUSD" [quoteBin100, quoteCb100, quoteGk102]).map
        ArbitrageOpportunity.buy_exchange = some "binance" ∧
    ("binance" : String) ≠ "coinbase" := by
  constructor
  · norm_num [detectGroup, sortByPrice, priceLE, quoteBin100, quoteCb100, quoteGk102]
  · decide

/-- C2 amended: the tie-break is positional in the group's quote list (the
stable sort keeps arrival order): buy side is the first quote attaining the
minimum price, sell side is the last quote attaining the maximum price.
Venue-configuration order decides ties only insofar as `fetch_all_prices`
happens to list quotes in adapter-task order. -/
theorem detectGroup_tie_break_positional (min_spread_pct : ℚ) (s : String)
    (prices : List PriceData) (h2 : 2 ≤ prices.length) :
    ∃ m M, firstMinQuote prices = some m ∧ lastMaxQuote prices = some M ∧
      ∀ o, detectGroup min_spread_pct s prices = some o →
        o.buy_exchange = m.exchange ∧ o.buy_price = m.price ∧
        o.sell_exchange = M.exchange ∧ o.sell_price = M.price := by
  obtain ⟨m, M, hm, hM, heq⟩ := detectGroup_some_eq min_spread_pct s prices h2
  refine ⟨m, M, hm, hM, ?_⟩
  intro o ho
  rw [heq] at ho
  by_cases hth : min_spread_pct ≤ (M.price - m.price) / m.price * 100
  · rw [if_pos hth] at ho
    rw [← Option.some_inj.mp ho]
    exact ⟨rfl, rfl, rfl, rfl⟩
  · rw [if_neg hth] at ho
    exact absurd ho (by simp)

/-- C2 witness: the tie-break theorem instantiated on the tie group
[binance@100, coinbase@100, coingecko@102]. -/
theorem detectGroup_tie_break_positional_witness :
    ∃ m M, firstMinQuote [quoteBin100, quoteCb100, quoteGk102] = some m ∧
      lastMaxQuote [quoteBin100, quoteCb100, quoteGk102] = some M ∧
      ∀ o, detectGroup 1 "BTCUSD" [quoteBin100, quoteCb100, quoteGk102] = some o →
        o.buy_exchange = m.exchange ∧ o.buy_price = m.price ∧
        o.sell_exchange = M.exchange ∧ o.sell_price = M.price :=
  detectGroup_tie_break_positional 1 "BTCUSD" [quoteBin100, quoteCb100, quoteGk102]
    (by decide)

/-- C3: when an adapter fails, every quote of every successful adapter still
reaches the grouping returned by `fetch_all_prices` under its symbol; the
cycle is not aborted (the function always returns a grouping). -/
theorem fetch_all_prices_keeps_other_adapters
    (results : List (Except String (List PriceData))) (i : ℕ)
    (qs : List PriceData) (hres : results[i]? = some (Except.ok qs))
    (q : PriceData) (hq : q ∈ qs) :
    ∃ g, (q.symbol, g) ∈ fetch_all_prices results ∧ q ∈ g := by
  have hmem : Except.ok qs ∈ results := List.getElem?_mem hres
  exact mem_groupBySymbol (mem_collectOk hq results [] hmem)

/-- C3 witness: coinbase succeeds, coingecko raises `SourceUnavailable`,
binance succeeds — binance's quote is still grouped under BTCUSD. -/
theorem fetch_all_prices_keeps_other_adapters_witness :
    ∃ g, (quoteBin102.symbol, g) ∈
        fetch_all_prices
          [Except.ok [quoteCb100], Except.error "SourceUnavailable",
            Except.ok [quoteBin102]] ∧
      quoteBin102 ∈ g :=
  fetch_all_prices_keeps_other_adapters
    [Except.ok [quoteCb100], Except.error "SourceUnavailable", Except.ok [quoteBin102]]
    2 [quoteBin102] rfl quoteBin102 (by decide)

/-- C4 counterexample: on a grouping whose BTCUSD group holds two quotes from
the same venue (coinbase@100 and coinbase@102) the detector emits an
opportunity with `buy_exchange = sell_exchange`, so the invariant
`buy_venue != sell_venue` does not hold for every input grouping. -/
theorem find_arbitrage_same_venue_cex :
    ¬ (∀ o ∈ find_arbitrage_opportunities 1 [("BTCUSD", [quoteCb100, quoteCb102])],
        o.buy_exchange ≠ o.sell_exchange) := by
  norm_num [find_arbitrage_opportunities, detectGroup, sortByPrice, priceLE,
    quoteCb100, quoteCb102]

/-- C4 amended: every opportunity produced by the detector satisfies
`spread_pct >= threshold` and `sell_price >= buy_price` for every input
grouping; it additionally satisfies `buy_venue != sell_venue` whenever no two
quotes of a group come from the same venue (as groupings built from one quote
per venue per symbol do). -/
theorem find_arbitrage_opportunities_invariants (min_spread_pct : ℚ)
    (groups : List (String × List PriceData)) (o : ArbitrageOpportunity)
    (ho : o ∈ find_arbitrage_opportunities min_spread_pct groups) :
    min_spread_pct ≤ o.spread_pct ∧ o.buy_price ≤ o.sell_price ∧
    ((∀ g ∈ groups, (g.2).Pairwise fun a b => a.exchange ≠ b.exchange) →
      o.buy_exchange ≠ o.sell_exchange) := by
  obtain ⟨g, hg, hdet⟩ := List.mem_filterMap.mp ho
  obtain ⟨h2, m, M, hm, hM, hth, rfl⟩ := detectGroup_some_inv hdet
  have hm' : (sortByPrice g.2).head? = some m := by
    rw [head?_sortByPrice]; exact hm
  have hM' : (sortByPrice g.2).getLast? = some M := by
    rw [getLast?_sortByPrice]; exact hM
  refine ⟨hth, head_le_getLast_sorted (sorted_sortByPrice g.2) hm' hM', ?_⟩
  intro hall
  exact head_getLast_exchange_ne h2 (hall g hg) hm' hM'

/-- C4 witness: the invariants instantiated on the grouping
[("BTCUSD", [coinbase@100, binance@102])] and its emitted opportunity. -/
theorem find_arbitrage_opportunities_invariants_witness :
    (1 : ℚ) ≤ oppCbBin.spread_pct ∧ oppCbBin.buy_price ≤ oppCbBin.sell_price ∧
    ((∀ g ∈ [("BTCUSD", [quoteCb100, quoteBin102])],
        (g.2).Pairwise fun a b => a.exchange ≠ b.exchange) →
      oppCbBin.buy_exchange ≠ oppCbBin.sell_exchange) :=
  find_arbitrage_opportunities_invariants 1 [("BTCUSD", [quoteCb100, quoteBin102])]
    oppCbBin
    (by norm_num [find_arbitrage_opportunities, detectGroup, sortByPrice, priceLE,
      quoteCb100, quoteBin102, oppCbBin])

/-- C5: as long as no `KeyboardInterrupt` occurs, the monitoring loop executes
every scripted cycle — errors included — sleeping the normal interval after
each one, and never terminates: a failing cycle is logged and the loop
proceeds to the next tick. -/
theorem start_monitoring_error_isolation (interval_seconds : ℕ)
    (cs : List CycleOutcome) (h : CycleOutcome.interrupt ∉ cs) :
    start_monitoring interval_seconds cs =
      (cs.map fun c => (c, interval_seconds), false) := by
  induction cs with
  | nil => rfl
  | cons c cs ih =>
    have hc : c ≠ CycleOutcome.interrupt := fun hc => h (hc ▸ List.mem_cons_self c cs)
    have hcs : CycleOutcome.interrupt ∉ cs := fun hm => h (List.mem_cons_of_mem c hm)
    cases c with
    | interrupt => exact absurd rfl hc
    | ok opps => simp [start_monitoring, ih hcs]
    | err msg => simp [start_monitoring, ih hcs]

/-- C5 witness: a script whose first cycle raises — the loop still runs the
following cycle after the normal interval and does not terminate. -/
theorem start_monitoring_error_isolation_witness :
    start_monitoring 30 [CycleOutcome.err "boom", CycleOutcome.ok []] =
      ([(CycleOutcome.err "boom", 30), (CycleOutcome.ok [], 30)], false) :=
  start_monitoring_error_isolation 30 [CycleOutcome.err "boom", CycleOutcome.ok []]
    (by decide)

/-- C6 counterexample: Binance returns [BTCUSDT (parses), ETHUSDT (malformed
price), SOLUSDT (parses)].  The claim says the malformed record is skipped and
the remaining records are returned; the code instead aborts the loop via the
function-level `except`, returning only the quotes parsed before the failure:
SOLUSDT's record is discarded. -/
theorem fetch_binance_parse_failure_cex :
    (fetch_binance_prices (some [tkBtc, tkEthBad, tkSol])).map PriceData.symbol
        = ["BTCUSD"] ∧
    ∀ p ∈ fetch_binance_prices (some [tkBtc, tkEthBad, tkSol]),
      p.symbol ≠ "SOLUSD" := by decide

/-- C6 amended: a record that fails to parse does not propagate an exception
out of the adapter call, but it aborts the record loop: the call returns
exactly the quotes parsed before the failing record and discards the rest. -/
theorem fetch_binance_stops_at_first_bad_record (pre post : List RawTicker)
    (bad : RawTicker) (hbad : bad.symbol ∈ binance_symbols)
    (hbadp : parseTicker bad = none)
    (hpre : ∀ t ∈ pre, t.symbol ∈ binance_symbols → (parseTicker t).isSome) :
    fetch_binance_prices (some (pre ++ bad :: post)) =
      fetch_binance_prices (some pre) :=
  binanceLoop_stops post hbad hbadp pre [] hpre

/-- C6 witness: the amended behaviour on the concrete three-ticker response. -/
theorem fetch_binance_stops_at_first_bad_record_witness :
    fetch_binance_prices (some ([tkBtc] ++ tkEthBad :: [tkSol])) =
      fetch_binance_prices (some [tkBtc]) :=
  fetch_binance_stops_at_first_bad_record [tkBtc] [tkSol] tkEthBad
    (by decide) (by decide) (by decide)

/-- C7: a symbol group with fewer than two quotes yields no opportunity,
whatever the prices. -/
theorem detectGroup_insufficient_quotes (min_spread_pct : ℚ) (s : String)
    (prices : List PriceData) (h : prices.length < 2) :
    detectGroup min_spread_pct s prices = none := by
  rw [detectGroup, if_pos h]

/-- C7 witness: a single-quote group yields no opportunity even at
threshold 0. -/
theorem detectGroup_insufficient_quotes_witness :
    ([quoteCb100] : List PriceData).length < 2 ∧
    detectGroup 0 "BTCUSD" [quoteCb100] = none :=
  ⟨by decide, detectGroup_insufficient_quotes 0 "BTCUSD" [quoteCb100] (by decide)⟩

/-- C8: when every adapter result is a failure, `fetch_all_prices` returns the
empty grouping, the detector consequently emits no opportunities, and both
functions return normally. -/
theorem fetch_all_prices_all_fail_empty (min_spread_pct : ℚ)
    (results : List (Except String (List PriceData)))
    (hfail : ∀ r ∈ results, r.isOk = false) :
    fetch_all_prices results = [] ∧
    find_arbitrage_opportunities min_spread_pct (fetch_all_prices results) = [] := by
  have hf : fetch_all_prices results = [] := by
    rw [fetch_all_prices, collectOk_all_fail results hfail]
    rfl
  exact ⟨hf, by rw [hf]; rfl⟩

/-- C8 witness: all three adapters fail. -/
theorem fetch_all_prices_all_fail_empty_witness :
    fetch_all_prices
        [Except.error "coinbase down", Except.error "coingecko down",
          Except.error "binance down"] = [] ∧
    find_arbitrage_opportunities (2/10)
        (fetch_all_prices
          [Except.error "coinbase down", Except.error "coingecko down",
            Except.error "binance down"]) = [] :=
  fetch_all_prices_all_fail_empty (2/10)
    [Except.error "coinbase down", Except.error "coingecko down",
      Except.error "binance down"]
    (by decide)

/-- C9 counterexample: with interval 30 and a first cycle taking 10 time units
(0 < 10 < 30), the code sleeps the full 30 after the cycle completes, so the
second cycle starts at 40 — not at 30, as the claimed compressed wait of
interval minus t would give. -/
theorem cycleStart_not_compressed_cex :
    cycleStart 30 (fun _ => 10) 1 = 40 ∧ (40 : ℕ) ≠ 30 := by decide

/-- C9 amended: the loop always sleeps the full configured interval after a
cycle completes, so the n-th cycle starts at `n * interval` plus the total
time of all previous cycles: the start-to-start gap is the cycle's duration
plus the interval, never compressed (and cycles never overlap, the loop being
sequential). -/
theorem cycleStart_full_interval_after_completion (interval_seconds : ℕ)
    (dur : ℕ → ℕ) (n : ℕ) :
    cycleStart interval_seconds dur n =
      n * interval_seconds + (Finset.range n).sum dur := by
  induction n with
  | zero => simp [cycleStart]
  | succ n ih =>
    rw [cycleStart, ih, Finset.sum_range_succ]
    ring

/-- C10: handing an empty opportunity list to `save_to_csv` performs no write:
the CSV file's contents are unchanged, and no file is created when none
exists. -/
theorem save_to_csv_empty_noop (file : Option (List CsvRow)) :
    save_to_csv [] file = file := rfl

end ArbMon
